import Mathlib

/-!
Shallow embedding of the text-fitting and compositing logic of
`src/app.py` (function `draw_text_on_image`, lines 95-152).

Modelling choices:
* Python strings are modelled as `List Char` (the code iterates the text
  character by character: `for char in text`).
* Pixel coordinates are `Int`; box entries come from JSON as integers.
* The PIL font object `ImageFont.truetype(font_path, size)` together with
  `font.getbbox` is abstracted as a `Measure`: the pixel width
  (`getbbox(s)[2] - getbbox(s)[0]`) and height (`getbbox(s)[3] - getbbox(s)[1]`)
  of a string at a given integer font size.  PIL's metrics are nonnegative
  integers, so both measures return `Nat`.
* The image is a total function from pixel coordinates to a colour value;
  `draw.text((x, y), line, font, fill)` is abstracted as painting the
  measured bounding rectangle of `line` anchored at `(x, y)`.
-/

/-- Abstraction of a loaded PIL `ImageFont`: pixel width and height of a
string at a given integer font size, as obtained from the differences of
`font.getbbox` coordinates in `draw_text_on_image`. -/
structure Measure where
  width : Nat → List Char → Nat
  height : Nat → List Char → Nat

/-- Embeds `int(font_size * 0.2)` (lines 133 and 147 of `src/app.py`).
For a positive integer `s`, the exact value of `s * 0.2` is `s / 5`, whose
fractional part lies in `{0, 0.2, 0.4, 0.6, 0.8}`.  The double nearest to
`0.2` exceeds `1/5` by about `1.1e-17`, so for every font size `s` in the
pixel range of an image (far below `2^50`) the rounded double product
`s * 0.2` lies in `[s/5, s/5 + 0.2)`, and Python's `int` truncation yields
exactly `⌊s / 5⌋`. -/
def lineSpacing (size : Nat) : Nat := size / 5

/-- Embeds the inner character loop of the greedy wrapper
(lines 121-129 of `src/app.py`): `cs` is the text still to scan, `lines`
the closed lines so far, `current` the line being accumulated.
A closed line is appended only when nonempty (`if current_line:`). -/
def wrapLoop (m : Measure) (size boxW : Nat) :
    List Char → List (List Char) → List Char → List (List Char) × List Char
  | [], lines, current => (lines, current)
  | c :: cs, lines, current =>
    let test := current ++ [c]
    if m.width size test ≤ boxW then
      wrapLoop m size boxW cs lines test
    else
      wrapLoop m size boxW cs (if current = [] then lines else lines ++ [current]) [c]

/-- Embeds lines 130-131 of `src/app.py`: after the character loop, the
pending `current_line` is appended when nonempty. -/
def closeWrap (p : List (List Char) × List Char) : List (List Char) :=
  if p.2 = [] then p.1 else p.1 ++ [p.2]

/-- Greedy character-by-character line wrapping of `text` at font size
`size` into a box of width `boxW` (lines 118-131 of `src/app.py`). -/
def wrap (m : Measure) (size boxW : Nat) (text : List Char) : List (List Char) :=
  closeWrap (wrapLoop m size boxW text [] [])

/-- Embeds lines 133-135 of `src/app.py`: total block height of `lines` at
font size `size`, i.e. the sum of the measured line heights plus
`line_spacing * (len(lines) - 1)`.  The `- 1` is `Nat` subtraction; in the
code the line list is nonempty whenever this is evaluated (the text is
nonempty), so the embedding agrees with Python's `len(lines) - 1` there. -/
def totalH (m : Measure) (size : Nat) (lines : List (List Char)) : Nat :=
  (lines.map (fun l => m.height size l)).sum + lineSpacing size * (lines.length - 1)

/-- Result of the font-size search loop of `draw_text_on_image`:
`lines` is the value of the `lines` variable after the loop, `fontSize`
the size of the last constructed `font` object, `finalSize` the value of
the `font_size` variable after the loop, and `tried` the sizes at which a
wrapping was computed, in order. -/
structure FitResult where
  lines : List (List Char)
  fontSize : Nat
  finalSize : Nat
  tried : List Nat
deriving DecidableEq, Repr

/-- Embeds the `while font_size > 8` loop (lines 116-140 of `src/app.py`).
`fontSize` is the current candidate, `prevLines`/`prevFont` the values of
the `lines` variable and the `font` object from before this iteration
(initially `[]` and the size-`box_h` font of line 113).  `fuel` is a
structural-recursion bound only: each iteration decreases the candidate by
2 and `fit` supplies `fuel = boxH`, which `fitLoop_fuel` shows is never
exhausted, so the `0` branch coincides with the loop-exit branch. -/
def fitLoop (m : Measure) (boxW boxH : Nat) (text : List Char) :
    Nat → Nat → List (List Char) → Nat → FitResult
  | 0, fontSize, prevLines, prevFont => ⟨prevLines, prevFont, fontSize, []⟩
  | fuel + 1, fontSize, prevLines, prevFont =>
    if 8 < fontSize then
      let ls := wrap m fontSize boxW text
      if totalH m fontSize ls ≤ boxH then
        ⟨ls, fontSize, fontSize, [fontSize]⟩
      else
        let r := fitLoop m boxW boxH text fuel (fontSize - 2) ls fontSize
        ⟨r.lines, r.fontSize, r.finalSize, fontSize :: r.tried⟩
    else
      ⟨prevLines, prevFont, fontSize, []⟩

/-- The size-search of `draw_text_on_image` for one region: candidate size
starts at `boxH` (line 112), the `lines` variable starts empty (line 115),
and the initial font object has size `boxH` (line 113). -/
def fit (m : Measure) (boxW boxH : Nat) (text : List Char) : FitResult :=
  fitLoop m boxW boxH text boxH boxH [] boxH

/-- One call of `draw.text((x, y_text), line, font=font, fill=color)`
(line 146 of `src/app.py`). -/
structure DrawCall where
  x : Int
  y : Int
  line : List Char
  size : Nat
  color : Nat
deriving DecidableEq, Repr

/-- Embeds the drawing loop (lines 142-147 of `src/app.py`): lines are
drawn top to bottom starting at `y = ymin`, each line at `(x, y)` with the
post-loop font (`fontSize`); `y` then advances by the measured line height
plus `spacing`, where `spacing = int(font_size * 0.2)` uses the post-loop
value of the `font_size` variable. -/
def drawLines (m : Measure) (fontSize spacing color : Nat) (x : Int) :
    Int → List (List Char) → List DrawCall
  | _, [] => []
  | y, l :: ls =>
    { x := x, y := y, line := l, size := fontSize, color := color } ::
      drawLines m fontSize spacing color x
        (y + (m.height fontSize l : Int) + (spacing : Int)) ls

/-- One entry of the `text_data` list consumed by `draw_text_on_image`:
the well-formed shape `{"text": ..., "box": [ymin, xmin, ymax, xmax],
"hex_color": ...}` produced by the detection step, with the colour value
abstracted to a numeric code. -/
structure Item where
  text : List Char
  ymin : Int
  xmin : Int
  ymax : Int
  xmax : Int
  color : Nat
deriving DecidableEq, Repr

/-- What processing one region produces: line 110 (`continue`) skips it,
otherwise the drawing loop issues the region's draw calls. -/
inductive Outcome where
  | skipped : Outcome
  | drawn : List DrawCall → Outcome
deriving DecidableEq, Repr

/-- Embeds the per-item body of `draw_text_on_image` (lines 101-147):
compute `box_w`, `box_h`; skip degenerate boxes and empty text (lines
109-110); otherwise run the size search and produce the draw calls. -/
def processItem (m : Measure) (it : Item) : Outcome :=
  let boxW := it.xmax - it.xmin
  let boxH := it.ymax - it.ymin
  if boxW ≤ 0 ∨ boxH ≤ 0 ∨ it.text = [] then
    Outcome.skipped
  else
    let r := fit m boxW.toNat boxH.toNat it.text
    Outcome.drawn
      (drawLines m r.fontSize (lineSpacing r.finalSize) it.color it.xmin it.ymin r.lines)

/-- The warning `st.warning(...)` of lines 149-150 of `src/app.py` is
raised only when the loop body throws an exception.  For a well-formed
item (four integer box entries, total measure functions) neither branch of
the body raises: the degenerate case exits via `continue` on line 110
before any warning, and the drawing path runs to completion.  So no item
produces a warning. -/
def itemWarnings (m : Measure) (it : Item) : Option (List Char) :=
  match processItem m it with
  | Outcome.skipped => none
  | Outcome.drawn _ => none

/-- All warnings recorded during one `draw_text_on_image` run. -/
def warnings (m : Measure) (items : List Item) : List (List Char) :=
  items.filterMap (fun it => itemWarnings m it)

/-- An image: colour value at each pixel coordinate. -/
def Image : Type := Int → Int → Nat

/-- Abstraction of one `draw.text` call: painting `call.color` over the
measured bounding rectangle of the drawn line, anchored at
`(call.x, call.y)`. -/
def paintCall (m : Measure) (call : DrawCall) (img : Image) : Image :=
  fun x y =>
    if call.x ≤ x ∧ x < call.x + (m.width call.size call.line : Int) ∧
        call.y ≤ y ∧ y < call.y + (m.height call.size call.line : Int) then
      call.color
    else
      img x y

/-- Apply a region's draw calls to an image, in order. -/
def applyCalls (m : Measure) (calls : List DrawCall) (img : Image) : Image :=
  calls.foldl (fun acc c => paintCall m c acc) img

/-- Embeds `draw_text_on_image` (lines 95-152 of `src/app.py`): start from
a copy of the background (`bg_image.copy()`, line 96, so the background
argument itself is never mutated) and process the items in list order. -/
def draw_text_on_image (m : Measure) (bg : Image) (items : List Item) : Image :=
  items.foldl
    (fun img it =>
      match processItem m it with
      | Outcome.skipped => img
      | Outcome.drawn calls => applyCalls m calls img)
    bg

/-! ### Basic properties of the greedy wrapper -/

/-- Width monotonicity of a font measure: a string is never wider than any
extension of it on either side.  Real glyph metrics satisfy this; the
big-character behaviour of the greedy wrapper relies on it. -/
def WidthMono (m : Measure) : Prop :=
  ∀ (s : Nat) (l₁ l₂ l₃ : List Char), m.width s l₂ ≤ m.width s (l₁ ++ l₂ ++ l₃)

/-- Concrete font measure used in witnesses and counterexamples: every
string is `size * length` pixels wide and `size` pixels tall at font size
`size`. -/
def mEx : Measure where
  width := fun s l => s * l.length
  height := fun s _ => s

/-- All-zero background image used in witnesses and counterexamples. -/
def bgEx : Image := fun _ _ => 0

/-! ### Claims -/

/-- Degenerate example region: zero-width box (left = right = 10). -/
def itD : Item := { text := ['x'], ymin := 10, xmin := 10, ymax := 50, xmax := 10, color := 0 }

/-- Example region whose box height 5 is positive but not above the
floor 8 (box 20 wide, 5 tall, nonempty text). -/
def itS : Item := { text := ['x'], ymin := 0, xmin := 0, ymax := 5, xmax := 20, color := 3 }

/-- Spec formula for the line spacing, `round(candidateSize * 0.2)`:
since the exact value `size / 5` has fractional part in
`{0, 0.2, 0.4, 0.6, 0.8}` there are no rounding ties, and rounding to the
nearest integer equals `⌊(size + 2) / 5⌋`. -/
def specLineSpacing (size : Nat) : Nat := (size + 2) / 5

/-- Spec formula for the total block height: sum of measured line heights
plus `specLineSpacing * (lineCount - 1)`. -/
def specTotalH (m : Measure) (size : Nat) (lines : List (List Char)) : Nat :=
  (lines.map (fun l => m.height size l)).sum + specLineSpacing size * (lines.length - 1)

/-- Vertical extent of a drawn block: line heights plus `spacing` between
consecutive lines (no trailing spacing). -/
def blockH (m : Measure) (fontSize spacing : Nat) : List (List Char) → Nat
  | [] => 0
  | [l] => m.height fontSize l
  | l :: ls => m.height fontSize l + spacing + blockH m fontSize spacing ls

/-- Region whose six-character text cannot fit its 10×10 box: the
best-effort fallback layout is drawn anyway and overflows below the box. -/
def itemA : Item :=
  { text := ['a','b','c','d','e','f'], ymin := 0, xmin := 0, ymax := 10, xmax := 10, color := 1 }

/-- Region whose single-character text fits its 10×10 box exactly;
its box is disjoint from `itemA`'s. -/
def itemB : Item :=
  { text := ['z'], ymin := 0, xmin := 100, ymax := 10, xmax := 110, color := 2 }

/-- Second fitting region, disjoint from `itemB`'s box. -/
def itB2 : Item :=
  { text := ['w'], ymin := 20, xmin := 200, ymax := 30, xmax := 210, color := 4 }

/-! ### Theorems -/

theorem closeWrap_flatten (p : List (List Char) × List Char) :
    (closeWrap p).flatten = p.1.flatten ++ p.2 := by
  unfold closeWrap
  by_cases h : p.2 = [] <;> simp [h]

theorem wrapLoop_flatten (m : Measure) (size boxW : Nat) :
    ∀ (cs : List Char) (lines : List (List Char)) (current : List Char),
      (closeWrap (wrapLoop m size boxW cs lines current)).flatten =
        lines.flatten ++ current ++ cs := by
  intro cs
  induction cs with
  | nil => intro lines current; simp [wrapLoop, closeWrap_flatten]
  | cons c cs ih =>
    intro lines current
    simp only [wrapLoop]
    by_cases h : m.width size (current ++ [c]) ≤ boxW
    · rw [if_pos h, ih]
      simp
    · rw [if_neg h, ih]
      by_cases hc : current = [] <;> simp [hc]

/-- The wrapped lines are, in order, contiguous slices of the input text:
their concatenation is exactly the input text. -/
theorem wrap_flatten (m : Measure) (size boxW : Nat) (text : List Char) :
    (wrap m size boxW text).flatten = text := by
  unfold wrap
  rw [wrapLoop_flatten]
  simp

theorem wrapLoop_ne_nil (m : Measure) (size boxW : Nat) :
    ∀ (cs : List Char) (lines : List (List Char)) (current : List Char),
      (∀ l ∈ lines, l ≠ []) →
      ∀ l ∈ closeWrap (wrapLoop m size boxW cs lines current), l ≠ [] := by
  intro cs
  induction cs with
  | nil =>
    intro lines current hl l hm
    unfold wrapLoop closeWrap at hm
    by_cases hc : current = []
    · simp [hc] at hm
      exact hl l hm
    · simp [hc] at hm
      rcases hm with hm | hm
      · exact hl l hm
      · exact hm ▸ hc
  | cons c cs ih =>
    intro lines current hl
    simp only [wrapLoop]
    by_cases h : m.width size (current ++ [c]) ≤ boxW
    · rw [if_pos h]
      exact ih lines (current ++ [c]) hl
    · rw [if_neg h]
      refine ih _ [c] ?_
      by_cases hc : current = []
      · simpa [hc] using hl
      · intro l hm
        simp only [if_neg hc, List.mem_append, List.mem_singleton] at hm
        rcases hm with hm | hm
        · exact hl l hm
        · exact hm ▸ hc

/-! ### Characterization of the size-search loop -/

/-- One-step unfolding of `fitLoop` at positive fuel. -/
theorem fitLoop_succ (m : Measure) (boxW boxH : Nat) (text : List Char)
    (fuel fontSize : Nat) (pl : List (List Char)) (pf : Nat) :
    fitLoop m boxW boxH text (fuel + 1) fontSize pl pf =
      if 8 < fontSize then
        if totalH m fontSize (wrap m fontSize boxW text) ≤ boxH then
          ⟨wrap m fontSize boxW text, fontSize, fontSize, [fontSize]⟩
        else
          ⟨(fitLoop m boxW boxH text fuel (fontSize - 2) (wrap m fontSize boxW text) fontSize).lines,
            (fitLoop m boxW boxH text fuel (fontSize - 2) (wrap m fontSize boxW text) fontSize).fontSize,
            (fitLoop m boxW boxH text fuel (fontSize - 2) (wrap m fontSize boxW text) fontSize).finalSize,
            fontSize ::
              (fitLoop m boxW boxH text fuel (fontSize - 2) (wrap m fontSize boxW text) fontSize).tried⟩
      else ⟨pl, pf, fontSize, []⟩ := rfl

theorem fitLoop_base (m : Measure) (boxW boxH : Nat) (text : List Char)
    (fuel fontSize : Nat) (pl : List (List Char)) (pf : Nat) (h : fontSize ≤ 8) :
    fitLoop m boxW boxH text fuel fontSize pl pf = ⟨pl, pf, fontSize, []⟩ := by
  cases fuel with
  | zero => rfl
  | succ fuel => rw [fitLoop_succ, if_neg (by omega)]

/-- Supplying one more unit of fuel than needed does not change the
result: the loop runs at most `(fontSize - 8 + 1) / 2 ≤ fuel` iterations
whenever `fontSize ≤ 2 * fuel + 8`, so the fuel bound is never hit. -/
theorem fitLoop_fuel (m : Measure) (boxW boxH : Nat) (text : List Char) :
    ∀ (fuel fontSize : Nat) (pl : List (List Char)) (pf : Nat),
      fontSize ≤ 2 * fuel + 8 →
      fitLoop m boxW boxH text fuel fontSize pl pf =
        fitLoop m boxW boxH text (fuel + 1) fontSize pl pf := by
  intro fuel
  induction fuel with
  | zero =>
    intro fontSize pl pf h
    rw [fitLoop_base m boxW boxH text 0 fontSize pl pf (by omega),
      fitLoop_base m boxW boxH text 1 fontSize pl pf (by omega)]
  | succ fuel ih =>
    intro fontSize pl pf h
    rw [fitLoop_succ m boxW boxH text fuel]
    rw [fitLoop_succ m boxW boxH text (fuel + 1)]
    by_cases h8 : 8 < fontSize
    · rw [if_pos h8, if_pos h8]
      by_cases hacc : totalH m fontSize (wrap m fontSize boxW text) ≤ boxH
      · rw [if_pos hacc, if_pos hacc]
      · rw [if_neg hacc, if_neg hacc, ih (fontSize - 2) _ _ (by omega)]
    · rw [if_neg h8, if_neg h8]

/-- Main invariant of the size-search loop, for a run that executes at
least one iteration (`8 < fontSize`, with enough fuel): the surviving line
list is the wrapping computed at the last tried size `r.fontSize`, which
is a candidate of the same parity as the entry size, still above the floor
8; and either that size was accepted (its block fits, and the `font_size`
variable still equals it) or the loop exhausted its candidates (the last
tried size does not fit, is at most 10, and `font_size` ended two below
it). -/
theorem fitLoop_main (m : Measure) (boxW boxH : Nat) (text : List Char) :
    ∀ (fuel fontSize : Nat) (pl : List (List Char)) (pf : Nat),
      8 < fontSize → fontSize ≤ 2 * fuel + 8 →
      ∀ r, r = fitLoop m boxW boxH text fuel fontSize pl pf →
        r.lines = wrap m r.fontSize boxW text ∧
        8 < r.fontSize ∧ r.fontSize ≤ fontSize ∧ r.fontSize % 2 = fontSize % 2 ∧
        ((r.finalSize = r.fontSize ∧ totalH m r.fontSize r.lines ≤ boxH) ∨
          (r.finalSize + 2 = r.fontSize ∧ boxH < totalH m r.fontSize r.lines ∧
            r.fontSize ≤ 10)) := by
  intro fuel
  induction fuel with
  | zero => intro fontSize pl pf h8 hfuel; omega
  | succ fuel ih =>
    intro fontSize pl pf h8 hfuel r hr
    rw [fitLoop_succ, if_pos h8] at hr
    by_cases hacc : totalH m fontSize (wrap m fontSize boxW text) ≤ boxH
    · rw [if_pos hacc] at hr
      subst hr
      refine ⟨rfl, h8, le_refl _, rfl, Or.inl ⟨rfl, hacc⟩⟩
    · rw [if_neg hacc] at hr
      by_cases h8' : 8 < fontSize - 2
      · obtain ⟨hl, hf8, hfle, hpar, hdisj⟩ :=
          ih (fontSize - 2) (wrap m fontSize boxW text) fontSize h8' (by omega)
            (fitLoop m boxW boxH text fuel (fontSize - 2) (wrap m fontSize boxW text) fontSize)
            rfl
        subst hr
        dsimp only
        exact ⟨hl, hf8, by omega, by omega, hdisj⟩
      · rw [fitLoop_base m boxW boxH text fuel (fontSize - 2) _ _ (by omega)] at hr
        subst hr
        dsimp only
        refine ⟨rfl, h8, le_refl _, rfl, Or.inr ⟨by omega, by omega, by omega⟩⟩

/-- The sizes at which a wrapping is computed form a chain decreasing by
exactly 2, all above the floor 8 and at most the entry size; their number
is at most `(fontSize - 7) / 2`; and the first one is the entry size. -/
theorem fitLoop_tried (m : Measure) (boxW boxH : Nat) (text : List Char) :
    ∀ (fuel fontSize : Nat) (pl : List (List Char)) (pf : Nat),
      ∀ r, r = fitLoop m boxW boxH text fuel fontSize pl pf →
        List.Chain' (fun a b => a = b + 2) r.tried ∧
        (∀ s ∈ r.tried, 8 < s ∧ s ≤ fontSize) ∧
        r.tried.length ≤ (fontSize - 7) / 2 ∧
        (r.tried ≠ [] → r.tried.head? = some fontSize) := by
  intro fuel
  induction fuel with
  | zero =>
    intro fontSize pl pf r hr
    subst hr
    refine ⟨?_, ?_, ?_, ?_⟩ <;> simp [fitLoop]
  | succ fuel ih =>
    intro fontSize pl pf r hr
    rw [fitLoop_succ] at hr
    by_cases h8 : 8 < fontSize
    · rw [if_pos h8] at hr
      by_cases hacc : totalH m fontSize (wrap m fontSize boxW text) ≤ boxH
      · rw [if_pos hacc] at hr
        subst hr
        refine ⟨List.chain'_singleton _, ?_, ?_, by simp⟩
        · intro s hs
          simp only [List.mem_singleton] at hs
          subst hs
          exact ⟨h8, le_refl _⟩
        · simp only [List.length_singleton]
          omega
      · rw [if_neg hacc] at hr
        obtain ⟨hch, hmem, hlen, hhead⟩ :=
          ih (fontSize - 2) (wrap m fontSize boxW text) fontSize
            (fitLoop m boxW boxH text fuel (fontSize - 2) (wrap m fontSize boxW text) fontSize)
            rfl
        subst hr
        dsimp only
        refine ⟨?_, ?_, ?_, by simp⟩
        · cases hT : (fitLoop m boxW boxH text fuel (fontSize - 2)
              (wrap m fontSize boxW text) fontSize).tried with
          | nil => simp
          | cons a T' =>
            have ha : a = fontSize - 2 := by
              have := hhead (by simp [hT])
              rw [hT] at this
              simpa using this
            rw [List.chain'_cons]
            constructor
            · omega
            · rw [← hT]
              exact hch
        · intro s hs
          rcases List.mem_cons.mp hs with hs | hs
          · subst hs
            exact ⟨h8, le_refl _⟩
          · obtain ⟨h1, h2⟩ := hmem s hs
            exact ⟨h1, by omega⟩
        · simp only [List.length_cons]
          omega
    · rw [if_neg h8] at hr
      subst hr
      refine ⟨?_, ?_, ?_, ?_⟩ <;> simp

/-! ### Big-character behaviour of the wrapper -/

theorem wrapLoop_mem_lines (m : Measure) (size boxW : Nat) :
    ∀ (cs : List Char) (lines : List (List Char)) (current : List Char) (l : List Char),
      l ∈ lines → l ∈ closeWrap (wrapLoop m size boxW cs lines current) := by
  intro cs
  induction cs with
  | nil =>
    intro lines current l hl
    unfold wrapLoop closeWrap
    by_cases hc : current = [] <;> simp [hc, hl]
  | cons c cs ih =>
    intro lines current l hl
    simp only [wrapLoop]
    by_cases h : m.width size (current ++ [c]) ≤ boxW
    · rw [if_pos h]
      exact ih _ _ _ hl
    · rw [if_neg h]
      refine ih _ _ _ ?_
      by_cases hc : current = [] <;> simp [hc, hl]

theorem wrapLoop_bigchar_state (m : Measure) (size boxW : Nat) (c : Char)
    (hmono : WidthMono m) (hbig : boxW < m.width size [c]) :
    ∀ (cs : List Char) (lines : List (List Char)),
      [c] ∈ closeWrap (wrapLoop m size boxW cs lines [c]) := by
  intro cs
  cases cs with
  | nil =>
    intro lines
    unfold wrapLoop closeWrap
    simp
  | cons c₂ cs₂ =>
    intro lines
    simp only [wrapLoop]
    have hw : ¬ m.width size ([c] ++ [c₂]) ≤ boxW := by
      have := hmono size [] [c] [c₂]
      simp only [List.nil_append] at this
      omega
    rw [if_neg hw]
    have hif : (if [c] = ([] : List Char) then lines else lines ++ [[c]]) = lines ++ [[c]] := by
      simp
    rw [hif]
    exact wrapLoop_mem_lines m size boxW cs₂ _ [c₂] [c] (by simp)

theorem wrapLoop_bigchar (m : Measure) (size boxW : Nat) (c : Char)
    (hmono : WidthMono m) (hbig : boxW < m.width size [c]) :
    ∀ (cs : List Char) (lines : List (List Char)) (current : List Char),
      c ∈ cs → [c] ∈ closeWrap (wrapLoop m size boxW cs lines current) := by
  intro cs
  induction cs with
  | nil =>
    intro lines current h
    simp at h
  | cons c₁ cs' ih =>
    intro lines current h
    rcases List.mem_cons.mp h with rfl | hmem
    · simp only [wrapLoop]
      have hw : ¬ m.width size (current ++ [c]) ≤ boxW := by
        have := hmono size current [c] []
        simp only [List.append_nil] at this
        omega
      rw [if_neg hw]
      exact wrapLoop_bigchar_state m size boxW c hmono hbig cs' _
    · simp only [wrapLoop]
      by_cases hc : m.width size (current ++ [c₁]) ≤ boxW
      · rw [if_pos hc]
        exact ih _ _ hmem
      · rw [if_neg hc]
        exact ih _ _ hmem

/-! ### Fit-level corollaries -/

theorem fit_lines_wrap (m : Measure) (boxW boxH : Nat) (text : List Char) (h8 : 8 < boxH) :
    (fit m boxW boxH text).lines = wrap m (fit m boxW boxH text).fontSize boxW text :=
  (fitLoop_main m boxW boxH text boxH boxH [] boxH h8 (by omega) _ rfl).1

/-! ### Example instances used in witnesses and counterexamples -/

theorem mEx_mono : WidthMono mEx := by
  intro s l₁ l₂ l₃
  simp only [mEx, List.length_append]
  exact Nat.mul_le_mul_left s (by omega)

/-- C1 counterexample: the text `"a"` is nonempty and the box
(width 10, height 5) is non-degenerate, yet the fitter produces zero
lines — their concatenation is the empty string, not the input text —
because the size search starts at the box height 5 and the loop guard
`font_size > 8` is immediately false. -/
theorem C1_cex :
    (fit mEx 10 5 ['a']).lines = [] ∧
    (fit mEx 10 5 ['a']).lines.flatten ≠ ['a'] := by
  constructor
  · decide
  · decide

/-- C1 (amended): for every measure, every text and every box whose
height exceeds the floor 8, the lines returned by the fitter are
contiguous slices of the text whose concatenation, in order with no
separators added, is exactly the input text; for box height at most 8 the
fitter instead returns zero lines (`C1_cex`, claim C9). -/
theorem C1_amended (m : Measure) (boxW boxH : Nat) (text : List Char)
    (h8 : 8 < boxH) :
    (fit m boxW boxH text).lines.flatten = text := by
  rw [fit_lines_wrap m boxW boxH text h8]
  exact wrap_flatten m _ boxW text

theorem C1_witness :
    8 < 12 ∧ (fit mEx 16 12 ['a','b','c','d']).lines.flatten = ['a','b','c','d'] :=
  ⟨by decide, C1_amended mEx 16 12 ['a','b','c','d'] (by decide)⟩

/-- C3: in the fitter's size search each successive candidate size tried
is obtained from the previous by subtracting the fixed step 2 (hence is
strictly smaller), every tried size is above the floor 8, and the number
of iterations is at most `(initialSize - floor) / step + 1` with
`initialSize = boxH`, `floor = 8`, `step = 2` — for every input. -/
theorem C3_tried (m : Measure) (boxW boxH : Nat) (text : List Char) :
    List.Chain' (fun a b => a = b + 2) (fit m boxW boxH text).tried ∧
    (∀ s ∈ (fit m boxW boxH text).tried, 8 < s) ∧
    (fit m boxW boxH text).tried.length ≤ (boxH - 8) / 2 + 1 := by
  obtain ⟨hch, hmem, hlen, _⟩ := fitLoop_tried m boxW boxH text boxH boxH [] boxH _ rfl
  refine ⟨hch, fun s hs => (hmem s hs).1, ?_⟩
  have he : (fit m boxW boxH text).tried.length =
      (fitLoop m boxW boxH text boxH boxH [] boxH).tried.length := rfl
  omega

/-- C7: when the width measure is monotone (as real glyph metrics are), a
character of `text` whose measured width alone exceeds the box width is
emitted by the greedy wrapping as its own, overflowing, single-character
line — it is not dropped and the scan does not loop — and the empty
string wraps to zero lines. -/
theorem C7_bigchar (m : Measure) (size boxW : Nat) (text : List Char) (c : Char)
    (hmono : WidthMono m) (hc : c ∈ text) (hbig : boxW < m.width size [c]) :
    [c] ∈ wrap m size boxW text ∧ wrap m size boxW [] = [] := by
  constructor
  · exact wrapLoop_bigchar m size boxW c hmono hbig text [] [] hc
  · rfl

theorem C7_witness :
    ('a' ∈ ['a', 'b']) ∧ 5 < mEx.width 10 ['a'] ∧
      (['a'] ∈ wrap mEx 10 5 ['a', 'b'] ∧ wrap mEx 10 5 [] = []) :=
  ⟨by decide, by decide, C7_bigchar mEx 10 5 ['a', 'b'] 'a' mEx_mono (by decide) (by decide)⟩

/-- C10: every line produced by the greedy wrapping is a nonempty string,
for every measure, candidate font size, box width and input text: lines
are only ever closed when the accumulated `current_line` is nonempty. -/
theorem C10_lines_nonempty (m : Measure) (size boxW : Nat) (text : List Char) :
    ∀ l ∈ wrap m size boxW text, l ≠ [] := by
  intro l hl
  exact wrapLoop_ne_nil m size boxW text [] [] (by simp) l hl

theorem C10_witness :
    ['a'] ∈ wrap mEx 10 20 ['a'] ∧ ['a'] ≠ ([] : List Char) :=
  ⟨by decide, C10_lines_nonempty mEx 10 20 ['a'] ['a'] (by decide)⟩

/-- Acceptance characterization: if the block at the surviving size fits
the box (and the search ran, `8 < boxH`), the run ended through the
`break` of line 138, so the `font_size` variable still equals the
accepted size. -/
theorem fit_accept_finalSize (m : Measure) (boxW boxH : Nat) (text : List Char)
    (h8 : 8 < boxH)
    (hacc : totalH m (fit m boxW boxH text).fontSize (fit m boxW boxH text).lines ≤ boxH) :
    (fit m boxW boxH text).finalSize = (fit m boxW boxH text).fontSize := by
  obtain ⟨hl, hf8, hfle, hpar, hdisj⟩ :=
    fitLoop_main m boxW boxH text boxH boxH [] boxH h8 (by omega) (fit m boxW boxH text) rfl
  rcases hdisj with ⟨h1, _⟩ | ⟨_, hgt, _⟩
  · exact h1
  · omega

/-- C2 counterexample: with the example measure, text `"abcd"`, box width
16 and height 12, no candidate size fits; the fitter keeps the wrapping
computed at the smallest size actually tried, 10 — single-character
lines — while the wrapping at the floor size 8 would have two-character
lines.  The claim's "accepts the floor size's wrapping (8 pixels)" is
therefore false. -/
theorem C2_cex :
    (fit mEx 16 12 ['a','b','c','d']).lines = [['a'], ['b'], ['c'], ['d']] ∧
    wrap mEx 8 16 ['a','b','c','d'] = [['a','b'], ['c','d']] ∧
    (fit mEx 16 12 ['a','b','c','d']).lines ≠ wrap mEx 8 16 ['a','b','c','d'] := by
  refine ⟨by decide, by decide, by decide⟩

/-- C2 (amended): when no candidate size in `(8, boxH]` yields a block
that fits the box height, the fitter accepts, best-effort, the wrapping
computed at the smallest size it actually tried — 10 when `boxH` is even,
9 when odd — never at the floor 8 itself (which is never tried); the
post-loop `font_size` variable ends two below that size.  Text may then
visually overflow the box. -/
theorem C2_amended (m : Measure) (boxW boxH : Nat) (text : List Char)
    (h8 : 8 < boxH)
    (hfail : ∀ s, s < boxH + 1 → 8 < s → boxH < totalH m s (wrap m s boxW text)) :
    (fit m boxW boxH text).fontSize = (if boxH % 2 = 0 then 10 else 9) ∧
    (fit m boxW boxH text).lines = wrap m (fit m boxW boxH text).fontSize boxW text ∧
    (fit m boxW boxH text).finalSize + 2 = (fit m boxW boxH text).fontSize := by
  obtain ⟨hl, hf8, hfle, hpar, hdisj⟩ :=
    fitLoop_main m boxW boxH text boxH boxH [] boxH h8 (by omega) (fit m boxW boxH text) rfl
  rcases hdisj with ⟨hacc, hle⟩ | ⟨hfin, hgt, h10⟩
  · exfalso
    have hs := hfail (fit m boxW boxH text).fontSize (by omega) hf8
    rw [← hl] at hs
    omega
  · refine ⟨?_, hl, hfin⟩
    by_cases hp : boxH % 2 = 0
    · rw [if_pos hp]
      omega
    · rw [if_neg hp]
      omega

theorem C2_witness :
    (8 < 12 ∧ (∀ s, s < 13 → 8 < s → 12 < totalH mEx s (wrap mEx s 16 ['a','b','c','d']))) ∧
    ((fit mEx 16 12 ['a','b','c','d']).fontSize = (if 12 % 2 = 0 then 10 else 9) ∧
      (fit mEx 16 12 ['a','b','c','d']).lines =
        wrap mEx (fit mEx 16 12 ['a','b','c','d']).fontSize 16 ['a','b','c','d'] ∧
      (fit mEx 16 12 ['a','b','c','d']).finalSize + 2 =
        (fit mEx 16 12 ['a','b','c','d']).fontSize) :=
  ⟨⟨by decide, by decide⟩, C2_amended mEx 16 12 ['a','b','c','d'] (by decide) (by decide)⟩

/-- C6 counterexample: box width 9, height 19, text `"ab"` under the
example measure.  The fitter reaches candidate size 9 with two lines; the
code's spacing is `int(9 * 0.2) = 1` (truncation), giving block height
`19 ≤ 19` — accepted.  The claim's `round(9 * 0.2) = 2` gives height 20,
which would have been rejected: the code truncates, it does not round. -/
theorem C6_cex :
    (fit mEx 9 19 ['a','b']).fontSize = 9 ∧
    (fit mEx 9 19 ['a','b']).lines = [['a'], ['b']] ∧
    totalH mEx 9 (fit mEx 9 19 ['a','b']).lines = 19 ∧
    specTotalH mEx 9 (fit mEx 9 19 ['a','b']).lines = 20 ∧
    totalH mEx 9 (fit mEx 9 19 ['a','b']).lines ≠
      specTotalH mEx 9 (fit mEx 9 19 ['a','b']).lines := by
  refine ⟨by decide, by decide, by decide, by decide, by decide⟩

/-- C6 (amended): at each candidate size the block height is the sum of
the measured line heights plus `lineSpacing * (lineCount - 1)` where
`lineSpacing = int(candidateSize * 0.2)` truncates to `⌊size / 5⌋` (it
does not round); and when the surviving candidate was accepted as
fitting, the same `lineSpacing` value advances the vertical position
between drawn lines, because the post-loop `font_size` still equals the
accepted size.  (On the no-fit fallback path the drawing advance instead
uses the post-loop size, two below the last tried size: see C2.) -/
theorem C6_amended (m : Measure) (boxW boxH : Nat) (text : List Char)
    (h8 : 8 < boxH)
    (hacc : totalH m (fit m boxW boxH text).fontSize (fit m boxW boxH text).lines ≤ boxH) :
    totalH m (fit m boxW boxH text).fontSize (fit m boxW boxH text).lines =
      ((fit m boxW boxH text).lines.map
          (fun l => m.height (fit m boxW boxH text).fontSize l)).sum +
        (fit m boxW boxH text).fontSize / 5 *
          ((fit m boxW boxH text).lines.length - 1) ∧
    lineSpacing (fit m boxW boxH text).finalSize =
      lineSpacing (fit m boxW boxH text).fontSize := by
  refine ⟨rfl, ?_⟩
  rw [fit_accept_finalSize m boxW boxH text h8 hacc]

theorem C6_witness :
    (8 < 19 ∧ totalH mEx (fit mEx 9 19 ['a','b']).fontSize (fit mEx 9 19 ['a','b']).lines ≤ 19) ∧
    (totalH mEx (fit mEx 9 19 ['a','b']).fontSize (fit mEx 9 19 ['a','b']).lines =
        ((fit mEx 9 19 ['a','b']).lines.map
            (fun l => mEx.height (fit mEx 9 19 ['a','b']).fontSize l)).sum +
          (fit mEx 9 19 ['a','b']).fontSize / 5 *
            ((fit mEx 9 19 ['a','b']).lines.length - 1) ∧
      lineSpacing (fit mEx 9 19 ['a','b']).finalSize =
        lineSpacing (fit mEx 9 19 ['a','b']).fontSize) :=
  ⟨⟨by decide, by decide⟩, C6_amended mEx 9 19 ['a','b'] (by decide) (by decide)⟩

/-- C4: a degenerate box (width ≤ 0 or height ≤ 0) or empty text makes
`draw_text_on_image` signal skip for that region (line 110): no lines are
produced, nothing is drawn — the image is unchanged — and no exception is
raised (the embedded semantics is total). -/
theorem C4_degenerate_skip (m : Measure) (it : Item) (bg : Image)
    (hdeg : it.xmax - it.xmin ≤ 0 ∨ it.ymax - it.ymin ≤ 0 ∨ it.text = []) :
    processItem m it = Outcome.skipped ∧ draw_text_on_image m bg [it] = bg := by
  have hp : processItem m it = Outcome.skipped := by
    simp only [processItem]
    rw [if_pos hdeg]
  refine ⟨hp, ?_⟩
  simp [draw_text_on_image, hp]

theorem C4_witness :
    processItem mEx itD = Outcome.skipped ∧ draw_text_on_image mEx bgEx [itD] = bgEx :=
  C4_degenerate_skip mEx itD bgEx (Or.inl (by decide))

/-- C5 counterexample: the degenerate region `itD` (zero-width box) is
skipped, yet the warning list of the whole run is empty: the `continue`
of line 110 bypasses the `st.warning` of lines 149-150 (which fires only
on exceptions), so the skipped region is dropped silently — refuting
"every skipped region is reported with a recorded warning". -/
theorem C5_cex :
    processItem mEx itD = Outcome.skipped ∧ warnings mEx [itD] = [] := by
  refine ⟨by decide, by decide⟩

/-- C5 (amended): a region skipped for a degenerate box or empty text is
dropped silently — no warning is recorded for it — but the skip is never
fatal to the run: the remaining regions are processed exactly as if the
skipped region were absent from the list. -/
theorem C5_amended (m : Measure) (it : Item) (its1 its2 : List Item) (bg : Image)
    (hdeg : it.xmax - it.xmin ≤ 0 ∨ it.ymax - it.ymin ≤ 0 ∨ it.text = []) :
    processItem m it = Outcome.skipped ∧
    itemWarnings m it = none ∧
    draw_text_on_image m bg (its1 ++ it :: its2) = draw_text_on_image m bg (its1 ++ its2) := by
  have hp : processItem m it = Outcome.skipped := by
    simp only [processItem]
    rw [if_pos hdeg]
  refine ⟨hp, ?_, ?_⟩
  · simp [itemWarnings, hp]
  · simp [draw_text_on_image, List.foldl_append, List.foldl_cons, hp]

theorem C5_witness :
    processItem mEx itD = Outcome.skipped ∧
    itemWarnings mEx itD = none ∧
    draw_text_on_image mEx bgEx ([] ++ itD :: [itS]) = draw_text_on_image mEx bgEx ([] ++ [itS]) :=
  C5_amended mEx itD [] [itS] bgEx (Or.inl (by decide))

/-- C9: for a region whose box width is positive, box height positive but
at most the floor 8, and text nonempty, the size-search loop body never
executes (no candidate size is tried), the line list stays empty, the
region produces no draw call — the image is unchanged — and no warning is
recorded: the region is dropped silently. -/
theorem C9_small_box (m : Measure) (it : Item) (bg : Image)
    (hw : 0 < it.xmax - it.xmin) (hh0 : 0 < it.ymax - it.ymin)
    (hh8 : it.ymax - it.ymin ≤ 8) (ht : it.text ≠ []) :
    processItem m it = Outcome.drawn [] ∧
    (fit m (it.xmax - it.xmin).toNat (it.ymax - it.ymin).toNat it.text).tried = [] ∧
    (fit m (it.xmax - it.xmin).toNat (it.ymax - it.ymin).toNat it.text).lines = [] ∧
    itemWarnings m it = none ∧
    draw_text_on_image m bg [it] = bg := by
  have hHle : (it.ymax - it.ymin).toNat ≤ 8 := by omega
  have hfit : fit m (it.xmax - it.xmin).toNat (it.ymax - it.ymin).toNat it.text =
      ⟨[], (it.ymax - it.ymin).toNat, (it.ymax - it.ymin).toNat, []⟩ :=
    fitLoop_base m _ _ it.text _ _ _ _ hHle
  have hp : processItem m it = Outcome.drawn [] := by
    simp only [processItem]
    rw [if_neg (by push_neg; exact ⟨by omega, by omega, ht⟩)]
    rw [hfit]
    rfl
  refine ⟨hp, by rw [hfit], by rw [hfit], ?_, ?_⟩
  · simp [itemWarnings, hp]
  · simp [draw_text_on_image, hp, applyCalls]

theorem C9_witness :
    processItem mEx itS = Outcome.drawn [] ∧
    itemWarnings mEx itS = none ∧
    draw_text_on_image mEx bgEx [itS] = bgEx :=
  ⟨(C9_small_box mEx itS bgEx (by decide) (by decide) (by decide) (by decide)).1,
    (C9_small_box mEx itS bgEx (by decide) (by decide) (by decide) (by decide)).2.2.2.1,
    (C9_small_box mEx itS bgEx (by decide) (by decide) (by decide) (by decide)).2.2.2.2⟩

/-! ### Compositor confinement -/

theorem blockH_eq (m : Measure) (fontSize spacing : Nat) :
    ∀ ls : List (List Char),
      blockH m fontSize spacing ls =
        (ls.map (fun l => m.height fontSize l)).sum + spacing * (ls.length - 1) := by
  intro ls
  induction ls with
  | nil => simp [blockH]
  | cons l ls ih =>
    cases ls with
    | nil => simp [blockH]
    | cons l2 ls2 =>
      have hb : blockH m fontSize spacing (l :: l2 :: ls2) =
          m.height fontSize l + spacing + blockH m fontSize spacing (l2 :: ls2) := rfl
      rw [hb, ih]
      simp only [List.map_cons, List.sum_cons, List.length_cons, Nat.add_sub_cancel]
      ring

/-- Every draw call produced for a line list is anchored at `x0`, uses the
surviving font size, draws one of the lines, and lies vertically between
the starting `y0` and `y0` plus the block height. -/
theorem drawLines_mem (m : Measure) (fontSize spacing color : Nat) (x0 : Int) :
    ∀ (ls : List (List Char)) (y0 : Int) (cl : DrawCall),
      cl ∈ drawLines m fontSize spacing color x0 y0 ls →
      cl.x = x0 ∧ cl.size = fontSize ∧ cl.line ∈ ls ∧
      y0 ≤ cl.y ∧
      cl.y + (m.height fontSize cl.line : Int) ≤
        y0 + (blockH m fontSize spacing ls : Int) := by
  intro ls
  induction ls with
  | nil =>
    intro y0 cl h
    simp [drawLines] at h
  | cons l ls ih =>
    intro y0 cl h
    simp only [drawLines, List.mem_cons] at h
    rcases h with rfl | h
    · refine ⟨rfl, rfl, by simp, le_refl _, ?_⟩
      dsimp only
      have hb : m.height fontSize l ≤ blockH m fontSize spacing (l :: ls) := by
        cases ls with
        | nil => simp [blockH]
        | cons l2 ls2 =>
          simp only [blockH]
          omega
      omega
    · cases ls with
      | nil => simp [drawLines] at h
      | cons l2 ls2 =>
        obtain ⟨h1, h2, h3, h4, h5⟩ := ih _ cl h
        refine ⟨h1, h2, List.mem_cons_of_mem _ h3, by omega, ?_⟩
        have hb : blockH m fontSize spacing (l :: l2 :: ls2) =
            m.height fontSize l + spacing + blockH m fontSize spacing (l2 :: ls2) := rfl
        omega

theorem paintCall_outside (m : Measure) (cl : DrawCall) (img : Image) (x y : Int)
    (h : ¬ (cl.x ≤ x ∧ x < cl.x + (m.width cl.size cl.line : Int) ∧
        cl.y ≤ y ∧ y < cl.y + (m.height cl.size cl.line : Int))) :
    paintCall m cl img x y = img x y := by
  simp only [paintCall]
  rw [if_neg h]

theorem applyCalls_outside (m : Measure) (x y : Int) :
    ∀ (calls : List DrawCall) (img : Image),
      (∀ cl ∈ calls, ¬ (cl.x ≤ x ∧ x < cl.x + (m.width cl.size cl.line : Int) ∧
          cl.y ≤ y ∧ y < cl.y + (m.height cl.size cl.line : Int))) →
      applyCalls m calls img x y = img x y := by
  intro calls
  induction calls with
  | nil => intro img _; rfl
  | cons c cs ih =>
    intro img h
    have hstep : applyCalls m (c :: cs) img = applyCalls m cs (paintCall m c img) := rfl
    rw [hstep, ih (paintCall m c img) (fun cl hcl => h cl (List.mem_cons_of_mem _ hcl))]
    exact paintCall_outside m c img x y (h c (List.mem_cons_self _ _))

/-- If a region's surviving layout was accepted as fitting (block height
within the box height, `font_size` not decremented past it) and each of
its lines is no wider than the box, then every draw call of that region
paints only inside the closed box area: a pixel outside the box is out of
every call's rectangle. -/
theorem processItem_calls_outside (m : Measure) (it : Item) (x y : Int)
    (hacc : totalH m (fit m (it.xmax - it.xmin).toNat (it.ymax - it.ymin).toNat it.text).fontSize
        (fit m (it.xmax - it.xmin).toNat (it.ymax - it.ymin).toNat it.text).lines ≤
      (it.ymax - it.ymin).toNat)
    (hfin : (fit m (it.xmax - it.xmin).toNat (it.ymax - it.ymin).toNat it.text).finalSize =
      (fit m (it.xmax - it.xmin).toNat (it.ymax - it.ymin).toNat it.text).fontSize)
    (hwid : ∀ l ∈ (fit m (it.xmax - it.xmin).toNat (it.ymax - it.ymin).toNat it.text).lines,
      m.width (fit m (it.xmax - it.xmin).toNat (it.ymax - it.ymin).toNat it.text).fontSize l ≤
        (it.xmax - it.xmin).toNat)
    (hout : x < it.xmin ∨ it.xmax < x ∨ y < it.ymin ∨ it.ymax < y)
    (calls : List DrawCall) (hcalls : processItem m it = Outcome.drawn calls) :
    ∀ cl ∈ calls,
      ¬ (cl.x ≤ x ∧ x < cl.x + (m.width cl.size cl.line : Int) ∧
          cl.y ≤ y ∧ y < cl.y + (m.height cl.size cl.line : Int)) := by
  simp only [processItem] at hcalls
  by_cases hg : it.xmax - it.xmin ≤ 0 ∨ it.ymax - it.ymin ≤ 0 ∨ it.text = []
  · rw [if_pos hg] at hcalls
    exact absurd hcalls (by simp)
  · rw [if_neg hg] at hcalls
    push_neg at hg
    obtain ⟨hgw, hgh, hgt⟩ := hg
    have hc : calls =
        drawLines m (fit m (it.xmax - it.xmin).toNat (it.ymax - it.ymin).toNat it.text).fontSize
          (lineSpacing
            (fit m (it.xmax - it.xmin).toNat (it.ymax - it.ymin).toNat it.text).finalSize)
          it.color it.xmin it.ymin
          (fit m (it.xmax - it.xmin).toNat (it.ymax - it.ymin).toNat it.text).lines := by
      injection hcalls with h
      exact h.symm
    subst hc
    intro cl hcl
    obtain ⟨hx, hsz, hline, hy1, hy2⟩ := drawLines_mem m _ _ it.color it.xmin _ it.ymin cl hcl
    intro hin
    obtain ⟨hi1, hi2, hi3, hi4⟩ := hin
    rw [hsz] at hi2 hi4
    have hwl : m.width
        (fit m (it.xmax - it.xmin).toNat (it.ymax - it.ymin).toNat it.text).fontSize cl.line ≤
        (it.xmax - it.xmin).toNat := hwid cl.line hline
    have hbh : blockH m
        (fit m (it.xmax - it.xmin).toNat (it.ymax - it.ymin).toNat it.text).fontSize
        (lineSpacing (fit m (it.xmax - it.xmin).toNat (it.ymax - it.ymin).toNat it.text).finalSize)
        (fit m (it.xmax - it.xmin).toNat (it.ymax - it.ymin).toNat it.text).lines =
        totalH m (fit m (it.xmax - it.xmin).toNat (it.ymax - it.ymin).toNat it.text).fontSize
          (fit m (it.xmax - it.xmin).toNat (it.ymax - it.ymin).toNat it.text).lines := by
      rw [hfin, blockH_eq]
      rfl
    rw [hbh] at hy2
    rcases hout with h | h | h | h <;> omega

/-- C8 (amended): the compositor never mutates the background (it paints
a copy) and, provided every region's surviving layout was accepted as
fitting — block height within the box height and every wrapped line no
wider than the box — the output image equals the background at every
pixel outside the (closed) box areas.  Without those provisos the drawn
text may exceed a box and change pixels outside it (`C8_cex`). -/
theorem C8_amended (m : Measure) (bg : Image) (items : List Item) (x y : Int)
    (hfit : ∀ it ∈ items,
      totalH m (fit m (it.xmax - it.xmin).toNat (it.ymax - it.ymin).toNat it.text).fontSize
          (fit m (it.xmax - it.xmin).toNat (it.ymax - it.ymin).toNat it.text).lines ≤
        (it.ymax - it.ymin).toNat ∧
      (fit m (it.xmax - it.xmin).toNat (it.ymax - it.ymin).toNat it.text).finalSize =
        (fit m (it.xmax - it.xmin).toNat (it.ymax - it.ymin).toNat it.text).fontSize ∧
      ∀ l ∈ (fit m (it.xmax - it.xmin).toNat (it.ymax - it.ymin).toNat it.text).lines,
        m.width (fit m (it.xmax - it.xmin).toNat (it.ymax - it.ymin).toNat it.text).fontSize l ≤
          (it.xmax - it.xmin).toNat)
    (hout : ∀ it ∈ items, x < it.xmin ∨ it.xmax < x ∨ y < it.ymin ∨ it.ymax < y) :
    draw_text_on_image m bg items x y = bg x y := by
  induction items generalizing bg with
  | nil => rfl
  | cons it its ih =>
    have hstep : draw_text_on_image m bg (it :: its) =
        draw_text_on_image m
          (match processItem m it with
            | Outcome.skipped => bg
            | Outcome.drawn calls => applyCalls m calls bg) its := rfl
    rw [hstep,
      ih _ (fun j hj => hfit j (List.mem_cons_of_mem _ hj))
        (fun j hj => hout j (List.mem_cons_of_mem _ hj))]
    cases hp : processItem m it with
    | skipped => rfl
    | drawn calls =>
      obtain ⟨ha, hf, hw⟩ := hfit it (List.mem_cons_self _ _)
      exact applyCalls_outside m x y calls bg
        (processItem_calls_outside m it x y ha hf hw (hout it (List.mem_cons_self _ _)) calls hp)

/-- C8 counterexample: `itemA` and `itemB` have non-overlapping boxes
(`[0,10] × [0,10]` and `[100,110] × [0,10]`), and the pixel `(2, 58)`
lies outside both; yet the composited output differs from the background
there: `itemA`'s text does not fit at any candidate size, the best-effort
layout of six lines at size 10 is drawn anyway, and its sixth line covers
`y ∈ [55, 65)`.  The pixel difference outside the boxes is not zero. -/
theorem C8_cex :
    itemA.xmax < itemB.xmin ∧
    ((2:Int) < itemA.xmin ∨ itemA.xmax < 2 ∨ (58:Int) < itemA.ymin ∨ itemA.ymax < 58) ∧
    ((2:Int) < itemB.xmin ∨ itemB.xmax < 2 ∨ (58:Int) < itemB.ymin ∨ itemB.ymax < 58) ∧
    draw_text_on_image mEx bgEx [itemA, itemB] 2 58 = 1 ∧
    bgEx 2 58 = 0 ∧
    draw_text_on_image mEx bgEx [itemA, itemB] 2 58 ≠ bgEx 2 58 := by
  refine ⟨by decide, by decide, by decide, by decide, by decide, by decide⟩

theorem C8_witness :
    draw_text_on_image mEx bgEx [itemB, itB2] 50 5 = bgEx 50 5 :=
  C8_amended mEx bgEx [itemB, itB2] 50 5 (by decide) (by decide)
